import Mathlib

/-!
Verification development for the redundant-array-elimination core of the
dace graph-rewriting engine (src/dace/transformation/dataflow/redundant_array.py).

The file embeds the two rewrite rules (`RedundantArray`, the forward rule, and
`RedundantSecondArray`, the backward rule) shallowly: the rule code itself is
translated line by line from the source; the collaborators that the source
imports but that are not part of the repository snapshot (the `subsets` region
algebra, the SDFG graph model and the container registry) are modelled from the
specification, each such definition marked `Modelled from the spec:`.

Python exceptions raised by the rule code (index errors, attribute errors on
`None`) are made explicit: `can_be_applied` returns `Except Err Bool`, where
an `Err` value names the concrete crash site.
-/

namespace DaceModel

/-- Modelled from the spec: a Region (Subset) is either a fixed point
(`indices`, one coordinate per dimension) or a strided interval per dimension
(`range`, each dimension a `(begin, end, step)` triple with inclusive end).
The `subsets` module is not part of the repository snapshot. -/
inductive Subset where
  | indices : List Int → Subset
  | range : List (Int × Int × Int) → Subset
  deriving DecidableEq

namespace Subset

/-- Modelled from the spec: the per-dimension lower bounds of a region. -/
def los : Subset → List Int
  | indices is => is
  | range rs => rs.map (fun r => r.1)

/-- Modelled from the spec: per-dimension `(low, high)` bounds of a region
(for a point, low = high). -/
def loHi : Subset → List (Int × Int)
  | indices is => is.map (fun i => (i, i))
  | range rs => rs.map (fun r => (r.1, r.2.1))

/-- Modelled from the spec: per-dimension sizes; for a point every
dimension has size 1, for a strided range `(b, e, s)` the size is
`(e - b) / s + 1`. -/
def size : Subset → List Int
  | indices is => is.map (fun _ => 1)
  | range rs => rs.map (fun r => (r.2.1 - r.1) / r.2.2 + 1)

/-- Modelled from the spec: `num_elements` is the product of the
per-dimension sizes; for `indices` it is always 1. -/
def num_elements : Subset → Int
  | indices _ => 1
  | range rs => (range rs).size.foldl (· * ·) 1

/-- Modelled from the spec: `offset(region, reference, negative)` translates
every dimension of the region by the corresponding lower bound of the
reference (subtracted when `negative` is true, added otherwise). -/
def offset (x ref : Subset) (negative : Bool) : Subset :=
  let ds := ref.los
  let sh : Int → Int → Int := fun v d => if negative then v - d else v + d
  match x with
  | indices is => indices ((is.zip ds).map (fun p => sh p.1 p.2))
  | range rs => range ((rs.zip ds).map (fun p => (sh p.1.1 p.2, sh p.1.2.1 p.2, p.1.2.2)))

/-- Modelled from the spec: `covers a b` is true iff `b` is contained in `a`
dimension-wise (requires equal dimensionality; false otherwise). -/
def covers (a b : Subset) : Bool :=
  decide (a.loHi.length = b.loHi.length) &&
    (a.loHi.zip b.loHi).all (fun p => decide (p.1.1 ≤ p.2.1) && decide (p.2.2 ≤ p.1.2))

/-- Modelled from the spec: `compose(outer, inner)` re-indexes `inner` inside
the coordinate frame of `outer`: each bound of `inner` is added to the
corresponding lower bound of `outer`; for an `indices` inner region the
composition degenerates to an additive offset. -/
def compose (outer inner : Subset) : Subset :=
  let ds := outer.los
  match inner with
  | indices is => indices ((ds.zip is).map (fun p => p.1 + p.2))
  | range rs => range ((ds.zip rs).map (fun p => (p.1 + p.2.1, p.1 + p.2.2.1, p.2.2.2)))

end Subset

/-- Container Descriptor: shape, storage class, transient flag, concrete
container kind (the tag compared by `type(in_desc) != type(out_desc)`) and
element type tag (spec section 3). -/
structure Descriptor where
  shape : List Int
  storage : Nat
  transient : Bool
  kind : Nat
  dtype : Nat
  deriving DecidableEq

/-- A graph node is either a data (access) node naming one container, or an
opaque compute/scope node. -/
inductive NodeKind where
  | access : String → NodeKind
  | other : Nat → NodeKind
  deriving DecidableEq

/-- A node carries a unique identity `nid` (Python object identity) and a kind. -/
structure Node where
  nid : Nat
  kind : NodeKind
  deriving DecidableEq

/-- The container name of an access node (`AccessNode.data`); junk for opaque
nodes, which never reach the `.data` accesses of the rule code. -/
def Node.dataName (n : Node) : String :=
  match n.kind with
  | .access nm => nm
  | .other _ => ""

/-- Whether the node is a data (access) node. -/
def Node.isAccess (n : Node) : Bool :=
  match n.kind with
  | .access _ => true
  | .other _ => false

/-- A region-annotated edge payload: referenced container name, the region on
that container, and optionally the region on the other endpoint's container. -/
structure Memlet where
  data : String
  subset : Subset
  other_subset : Option Subset
  deriving DecidableEq

/-- A graph edge: unique identity `eid`, endpoints by node id, connector
labels, and the memlet payload. -/
structure Edge where
  eid : Nat
  src : Nat
  src_conn : Option String
  dst : Nat
  dst_conn : Option String
  data : Memlet
  deriving DecidableEq

/-- One program state: a directed multigraph plus the two path oracles of the
Graph Model collaborator. `memlet_path e` is the ordered edge sequence (by
edge id) from true source to true sink through scope nodes; `memlet_tree e`
is the edge set reachable forward from `e` through scope nodes. Modelled from
the spec: the graph model is an external collaborator, so the oracles are
given as fields rather than recomputed. -/
@[ext]
structure Graph where
  nodes : List Node
  edges : List Edge
  memlet_path : Nat → List Nat
  memlet_tree : Nat → List Nat

namespace Graph

/-- Number of outgoing edges of the node with id `nid`. -/
def out_degree (g : Graph) (nid : Nat) : Nat :=
  (g.edges.filter (fun e => e.src == nid)).length

/-- Number of incoming edges of the node with id `nid`. -/
def in_degree (g : Graph) (nid : Nat) : Nat :=
  (g.edges.filter (fun e => e.dst == nid)).length

/-- Incoming edges of the node with id `nid`. -/
def in_edges (g : Graph) (nid : Nat) : List Edge :=
  g.edges.filter (fun e => e.dst == nid)

/-- Outgoing edges of the node with id `nid`. -/
def out_edges (g : Graph) (nid : Nat) : List Edge :=
  g.edges.filter (fun e => e.src == nid)

/-- Edges from node `a` to node `b`. -/
def edges_between (g : Graph) (a b : Nat) : List Edge :=
  g.edges.filter (fun e => e.src == a && e.dst == b)

/-- Remove the edge with identity `eid`. -/
def removeEdge (g : Graph) (eid : Nat) : Graph :=
  { g with edges := g.edges.filter (fun e => e.eid != eid) }

/-- Append an edge. -/
def addEdge (g : Graph) (e : Edge) : Graph :=
  { g with edges := g.edges ++ [e] }

/-- Remove the node with id `nid` together with all incident edges. -/
def removeNode (g : Graph) (nid : Nat) : Graph :=
  { g with
    nodes := g.nodes.filter (fun n => n.nid != nid),
    edges := g.edges.filter (fun e => e.src != nid && e.dst != nid) }

end Graph

/-- The whole program: the container registry (name-to-descriptor mapping,
modelled from the spec as an association list) and the list of states. -/
structure SDFG where
  arrays : List (String × Descriptor)
  states : List Graph

/-- Registry lookup by container name (`sdfg.arrays[name]`). -/
def SDFG.lookup (s : SDFG) (nm : String) : Option Descriptor :=
  (s.arrays.find? (fun p => p.1 == nm)).map (fun p => p.2)

/-- A matcher candidate: the two pattern roles bound to positions in the
state's node list (`candidate[RedundantArray._in_array]` is an index into
`graph.nodes()`). -/
structure Candidate where
  inIdx : Nat
  outIdx : Nat

/-- Explicit crash sites of the rule code. -/
inductive Err where
  /-- `graph.nodes()[i]` out of range, or `.desc`/`.data` on a non-access node. -/
  | badCandidate
  /-- `sdfg.arrays[name]` has no entry for the name (KeyError). -/
  | noDesc
  /-- `graph.edges_between(in_array, out_array)[0]` on an empty list (IndexError). -/
  | noEdge
  /-- Both sides of the connecting memlet carry no region. -/
  | noneSubset
  /-- `dcpy(e.data.other_subset).offset(...)` with `other_subset` absent:
  `offset` called on `None` (AttributeError), lines 200-201 of the source. -/
  | noneOffset
  deriving DecidableEq

/-- Decidable equality of rule-check results, so that concrete runs of the
applicability checks can be settled by `decide`. -/
instance instDecEqExcept {e a : Type} [DecidableEq e] [DecidableEq a] :
    DecidableEq (Except e a) := fun x y =>
  match x, y with
  | .error u, .error v =>
    if h : u = v then .isTrue (by rw [h]) else .isFalse (fun hh => h (Except.error.inj hh))
  | .ok u, .ok v =>
    if h : u = v then .isTrue (by rw [h]) else .isFalse (fun hh => h (Except.ok.inj hh))
  | .error _, .ok _ => .isFalse (fun hh => Except.noConfusion hh)
  | .ok _, .error _ => .isFalse (fun hh => Except.noConfusion hh)

/-- Resolve a candidate role to an access node and its container name. -/
def resolveAccess (g : Graph) (idx : Nat) : Except Err (Node × String) :=
  match g.nodes[idx]? with
  | none => .error .badCandidate
  | some n =>
    match n.kind with
    | .access nm => .ok (n, nm)
    | .other _ => .error .badCandidate

/-- The whole-program occurrence scan (lines 55-64 / 154-162 of the source):
count, over all nodes of all states, the access nodes whose descriptor equals
`d`; an access node naming an unregistered container raises (KeyError). -/
def countOccAux (s : SDFG) (d : Descriptor) : List Node → Except Err Nat
  | [] => .ok 0
  | ⟨_, .other _⟩ :: rest => countOccAux s d rest
  | ⟨_, .access nm⟩ :: rest =>
    match s.lookup nm with
    | none => .error .noDesc
    | some dn =>
      (countOccAux s d rest).map (fun k => (if dn = d then 1 else 0) + k)

/-- Occurrence count of descriptor `d` across every state of the program. -/
def countOcc (s : SDFG) (d : Descriptor) : Except Err Nat :=
  countOccAux s d ((s.states.map Graph.nodes).flatten)

/-- `functools.reduce(lambda a, b: a * b, sequence, 1)` over a shape. -/
def prodShape (shape : List Int) : Int :=
  shape.foldl (· * ·) 1

/-- Lines 167-181 / 222-236 of the source: from the connecting edge's memlet,
extract the producer-side (`inp_subset`) and destination-side (`out_subset`)
regions, synthesizing a missing one as the other region translated to start
at its own origin. Returns `none` only when both sides are absent. -/
def connectingSubsets (m : Memlet) (inName : String) : Option (Subset × Subset) :=
  let inp0 : Option Subset :=
    if m.data = inName then some m.subset else m.other_subset
  let out0 : Option Subset :=
    if m.data = inName then m.other_subset else some m.subset
  match inp0, out0 with
  | some i, some o => some (i, o)
  | none, some o => some (o.offset o true, o)
  | some i, none => some (i, i.offset i true)
  | none, none => none

/-- Lines 193-201 of the source: the region of an outgoing edge of the
destination node, as the coverage loop extracts it. `none` is the branch
that crashes (`dcpy(None).offset`). -/
def outEdgeSubset (e : Edge) (outName : String) : Option Subset :=
  if e.data.data = outName then some e.data.subset else e.data.other_subset

/-- Lines 191-206 of the source: check that `out_subset` covers the region of
every outgoing edge of the destination node; the first uncovered edge returns
false, an edge with no extractable region raises. -/
def checkOutEdges (out_subset : Subset) (outName : String) : List Edge → Except Err Bool
  | [] => .ok true
  | e :: rest =>
    match outEdgeSubset e outName with
    | none => .error .noneOffset
    | some s => if out_subset.covers s then checkOutEdges out_subset outName rest else .ok false

/-- `RedundantArray.can_be_applied` (lines 32-78 of the source), translated
line by line; Python exceptions become `Err` values. -/
def canBeApplied1 (graph : Graph) (cand : Candidate) (sdfg : SDFG) (strict : Bool) :
    Except Err Bool :=
  match resolveAccess graph cand.inIdx, resolveAccess graph cand.outIdx with
  | .error err, _ => .error err
  | .ok _, .error err => .error err
  | .ok (in_array, inName), .ok (out_array, outName) =>
    match sdfg.lookup inName, sdfg.lookup outName with
    | none, _ => .error .noDesc
    | some _, none => .error .noDesc
    | some in_desc, some out_desc =>
      -- Ensure out degree is one (only one target, which is out_array)
      if graph.out_degree in_array.nid ≠ 1 then .ok false
      -- Make sure that the candidate is a transient variable
      else if ¬ in_desc.transient then .ok false
      -- Make sure that both arrays are using the same storage location
      -- and are of the same type
      else if in_desc.storage ≠ out_desc.storage then .ok false
      else if in_desc.kind ≠ out_desc.kind then .ok false
      else
        -- Find occurrences in this and other states
        match countOcc sdfg in_desc with
        | .error err => .error err
        | .ok occ =>
          if occ > 1 then .ok false
          -- Only apply if arrays are of same shape (no need to modify subset)
          else if in_desc.shape.length ≠ out_desc.shape.length ∨
              ((in_desc.shape.zip out_desc.shape).any (fun p => p.1 ≠ p.2)) then
            .ok false
          else if strict then
            -- In strict mode, make sure the memlet covers the removed array
            match graph.edges_between in_array.nid out_array.nid with
            | [] => .error .noEdge
            | e :: _ =>
              if (e.data.subset.size.zip in_desc.shape).any (fun p => p.1 ≠ p.2) then
                .ok false
              else .ok true
          else .ok true

/-- `RedundantSecondArray.can_be_applied` (lines 131-206 of the source),
translated line by line; Python exceptions become `Err` values. The `strict`
flag takes no part in this rule's check. -/
def canBeApplied2 (graph : Graph) (cand : Candidate) (sdfg : SDFG) (strict : Bool) :
    Except Err Bool :=
  match resolveAccess graph cand.inIdx, resolveAccess graph cand.outIdx with
  | .error err, _ => .error err
  | .ok _, .error err => .error err
  | .ok (in_array, inName), .ok (out_array, outName) =>
    match sdfg.lookup inName, sdfg.lookup outName with
    | none, _ => .error .noDesc
    | some _, none => .error .noDesc
    | some in_desc, some out_desc =>
      -- Ensure in degree is one (only one source, which is in_array)
      if graph.in_degree out_array.nid ≠ 1 then .ok false
      -- Make sure that the candidate is a transient variable
      else if ¬ out_desc.transient then .ok false
      -- Same storage location and same concrete type
      else if in_desc.storage ≠ out_desc.storage then .ok false
      else if in_desc.kind ≠ out_desc.kind then .ok false
      else
        -- Find occurrences in this and other states
        match countOcc sdfg out_desc with
        | .error err => .error err
        | .ok occ =>
          if occ > 1 then .ok false
          else
            -- Extract the input (first) and output (second) array subsets
            match graph.edges_between in_array.nid out_array.nid with
            | [] => .error .noEdge
            | e :: _ =>
              match connectingSubsets e.data inName with
              | none => .error .noneSubset
              | some (inp_subset, out_subset) =>
                -- If the data copied from the first array are equal in size
                -- to the second array, then all subsets are covered
                if inp_subset.num_elements = prodShape out_desc.shape then .ok true
                -- Check each output edge of the second array
                else checkOutEdges out_subset outName (graph.out_edges out_array.nid)

/-- Lines 97-99 of the source: the effect of the path-walk rename on a single
edge: an edge lying on the path (by id) whose memlet currently names `frm` is
renamed to name `toName`; any other edge is untouched. -/
def renOn (frm toName : String) (pids : List Nat) (pe : Edge) : Edge :=
  if pe.eid ∈ pids ∧ pe.data.data = frm then
    { pe with data := { pe.data with data := toName } }
  else pe

/-- Lines 96-99 of the source: walk a memlet path (a list of edge ids) and
rename every edge segment whose memlet currently names `frm` to name
`toName`. -/
def renameAlong (g : Graph) (pids : List Nat) (frm toName : String) : Graph :=
  { g with edges := g.edges.map (renOn frm toName pids) }

/-- The current memlet of the edge with identity `eid` (Python aliasing:
`e.data` is mutated in place by the path walk before the edge is re-added). -/
def currentMemlet (g : Graph) (eid : Nat) (dflt : Memlet) : Memlet :=
  match g.edges.find? (fun pe => pe.eid == eid) with
  | some pe => pe.data
  | none => dflt

/-- One iteration of the forward rule's inbound-edge loop (lines 94-103 of
the source): rename the memlet path of the inbound edge `e`, then redirect
`e` to terminate at the destination node, keeping source endpoint, connectors
and (current, possibly renamed) memlet. -/
def fwdStep (inName outName : String) (outNid : Nat) (acc : Graph) (e : Edge) : Graph :=
  -- Modify all incoming edges to point to out_array
  let acc1 := renameAlong acc (acc.memlet_path e.eid) inName outName
  -- Redirect edge to out_array
  let m := currentMemlet acc1 e.eid e.data
  (acc1.removeEdge e.eid).addEdge { e with dst := outNid, data := m }

/-- `RedundantArray.apply` (lines 86-106 of the source) on a resolved state:
for every inbound edge of `in_array`, rename its full memlet path from the
source container to the destination container, redirect the edge to
`out_array`, and finally remove `in_array`. -/
def applyForwardG (g : Graph) (in_array out_array : Node) : Graph :=
  ((g.in_edges in_array.nid).foldl
    (fwdStep in_array.dataName out_array.dataName out_array.nid) g).removeNode
    in_array.nid

/-- Lines 250-259 / 268-275 of the source: migrate one region through the
elided copy: first strip the destination-relative offset (`offset` by
`out_subset` with `negative` true), then re-express the result inside the
producer's coordinate frame (additive offset for an `indices` producer
region, range composition otherwise). -/
def migrateSubset (inp_subset out_subset s : Subset) : Subset :=
  let s1 := s.offset out_subset true
  match inp_subset with
  | .indices is => (Subset.indices is).offset s1 false
  | .range rs => (Subset.range rs).compose s1

/-- Lines 241-281 of the source: rewrite one edge segment of the migrated
memlet tree. An edge naming the destination container is renamed to the
producer and its region migrated; an edge with an other-side region keeps its
name and has that region migrated; an edge with neither is left untouched. -/
def migrateEdge (inp_subset out_subset : Subset) (inName outName : String)
    (pe : Edge) : Edge :=
  if pe.data.data = outName then
    { pe with data := { pe.data with
        data := inName,
        subset := migrateSubset inp_subset out_subset pe.data.subset } }
  else
    match pe.data.other_subset with
    | some os =>
      { pe with data := { pe.data with
          other_subset := some (migrateSubset inp_subset out_subset os) } }
    | none => pe

/-- One iteration of the backward rule's outgoing-edge loop (lines 238-285 of
the source): migrate every edge segment on the memlet tree of the outgoing
edge `oe`, then redirect `oe` to originate at the producer node, keeping
connectors and the (current, migrated) memlet. -/
def bwdStep (inp_subset out_subset : Subset) (inName outName : String) (inNid : Nat)
    (acc : Graph) (oe : Edge) : Graph :=
  -- Modify all outgoing edges to point to in_array
  let tree := acc.memlet_tree oe.eid
  let acc1 := { acc with edges := acc.edges.map (fun pe =>
    if pe.eid ∈ tree then
      migrateEdge inp_subset out_subset inName outName pe
    else pe) }
  -- Redirect edge to in_array
  let m := currentMemlet acc1 oe.eid oe.data
  (acc1.removeEdge oe.eid).addEdge { oe with src := inNid, data := m }

/-- `RedundantSecondArray.apply` (lines 214-288 of the source) on a resolved
state: recompute the connecting regions, then for every outgoing edge of
`out_array` migrate its full memlet tree and redirect its source endpoint to
`in_array` (one `bwdStep` each), and finally remove `out_array`. The
branches that would raise in Python (no connecting edge, no region on either
side) return the state unchanged; they are unreachable when `can_be_applied`
held. -/
def applyBackwardG (g : Graph) (in_array out_array : Node) : Graph :=
  let inName := in_array.dataName
  let outName := out_array.dataName
  -- Extract the input (first) and output (second) array subsets
  match g.edges_between in_array.nid out_array.nid with
  | [] => g
  | e :: _ =>
    match connectingSubsets e.data inName with
    | none => g
    | some (inp_subset, out_subset) =>
      -- Finally, remove out_array node
      ((g.out_edges out_array.nid).foldl
        (bwdStep inp_subset out_subset inName outName in_array.nid) g).removeNode
        out_array.nid

/-- `RedundantArray.apply` at the SDFG level: resolve
`graph = sdfg.nodes()[state_id]` and the candidate's role bindings, then
rewrite that state. Resolution failures (undefined behavior of `apply`,
prevented by the driver) leave the program unchanged. -/
def applyForward (sdfg : SDFG) (state_id : Nat) (cand : Candidate) : SDFG :=
  match sdfg.states[state_id]? with
  | none => sdfg
  | some g =>
    match g.nodes[cand.inIdx]?, g.nodes[cand.outIdx]? with
    | some inN, some outN =>
      { sdfg with states := sdfg.states.set state_id (applyForwardG g inN outN) }
    | _, _ => sdfg

/-- `RedundantSecondArray.apply` at the SDFG level. -/
def applyBackward (sdfg : SDFG) (state_id : Nat) (cand : Candidate) : SDFG :=
  match sdfg.states[state_id]? with
  | none => sdfg
  | some g =>
    match g.nodes[cand.inIdx]?, g.nodes[cand.outIdx]? with
    | some inN, some outN =>
      { sdfg with states := sdfg.states.set state_id (applyBackwardG g inN outN) }
    | _, _ => sdfg

/-- The mutable state of the core beyond the graph: the two class-level
removal counters (`RedundantArray._arrays_removed` and
`RedundantSecondArray._arrays_removed`). -/
structure CoreState where
  sdfg : SDFG
  fwd_removed : Nat
  bwd_removed : Nat

/-- `RedundantArray.apply` including its counter effect (lines 109-110 of
the source): the class-level counter is incremented when the global
`debugprint` configuration flag is set. -/
def applyForwardFull (debugprint : Bool) (st : CoreState) (state_id : Nat)
    (cand : Candidate) : CoreState :=
  { st with
    sdfg := applyForward st.sdfg state_id cand,
    fwd_removed := if debugprint then st.fwd_removed + 1 else st.fwd_removed }

/-- `RedundantSecondArray.apply` including its counter effect (lines 291-292
of the source). -/
def applyBackwardFull (debugprint : Bool) (st : CoreState) (state_id : Nat)
    (cand : Candidate) : CoreState :=
  { st with
    sdfg := applyBackward st.sdfg state_id cand,
    bwd_removed := if debugprint then st.bwd_removed + 1 else st.bwd_removed }

/-- The forward rule's apply, stated the way the specification describes it
(spec section 4.3 Apply): every edge segment lying on the memlet path of some
inbound edge of the source node and naming the source container is renamed to
the destination container; every inbound edge is re-pointed to terminate at
the destination node with the same source endpoint, connectors and region
descriptor; the source node (and no other node) is removed, together with its
remaining incident edges. -/
def applyForwardSpecFn (g : Graph) (in_array out_array : Node) : Graph :=
  let inName := in_array.dataName
  let outName := out_array.dataName
  let pathIds := ((g.in_edges in_array.nid).map (fun e => g.memlet_path e.eid)).flatten
  let ren : Edge → Edge := renOn inName outName pathIds
  { g with
    nodes := g.nodes.filter (fun n => n.nid != in_array.nid),
    edges :=
      ((g.edges.filter (fun e => e.dst != in_array.nid)).filter
          (fun e => e.src != in_array.nid)).map ren ++
        (g.edges.filter (fun e => e.dst == in_array.nid)).map
          (fun e => { ren e with dst := out_array.nid }) }

/-! Concrete program instances used by witnesses and counterexamples. -/

/-- An empty state, used as the default of `List.headD`. -/
def emptyGraph : Graph := ⟨[], [], fun _ => [], fun _ => []⟩

/-- Producer node of the backward-rule region scenario. -/
def nodeA : Node := ⟨0, .access "A"⟩

/-- Transient destination node of the backward-rule region scenario. -/
def nodeB : Node := ⟨1, .access "B"⟩

/-- Backward-rule region scenario (spec section 8, Scenario C shape): the
producer container `A` writes region `[a, a+b)` into the transient `B` at
offset `[c, c+b)`, and a downstream consumer reads `B` at absolute position
`c + d`. -/
def c1Graph (a b c d : Int) : Graph :=
  ⟨[nodeA, nodeB, ⟨2, .other 0⟩],
   [⟨0, 0, none, 1, none, ⟨"A", .range [(a, a + b - 1, 1)], some (.range [(c, c + b - 1, 1)])⟩⟩,
    ⟨1, 1, none, 2, none, ⟨"B", .indices [c + d], none⟩⟩],
   fun eid => [eid], fun eid => [eid]⟩

/-- State exercising the missing-region synthesis branch of the backward
rule's coverage loop: the outgoing edge of the transient `B` names a third
container `X` and carries no other-side region. -/
def c3Graph : Graph :=
  ⟨[⟨0, .access "A"⟩, ⟨1, .access "B"⟩, ⟨2, .access "X"⟩],
   [⟨0, 0, none, 1, none, ⟨"A", .range [(0, 0, 1)], none⟩⟩,
    ⟨1, 1, none, 2, none, ⟨"X", .range [(0, 0, 1)], none⟩⟩],
   fun eid => [eid], fun eid => [eid]⟩

/-- Whole program around `c3Graph`; the copy touches one element of the
two-element `B`, so the size-equality shortcut does not hold and the
coverage loop runs. -/
def c3Sdfg : SDFG :=
  ⟨[("A", ⟨[2], 0, true, 0, 0⟩), ("B", ⟨[2], 0, true, 0, 1⟩), ("X", ⟨[2], 0, true, 0, 2⟩)],
   [c3Graph]⟩

/-- A chain `A → B → C` of one-element transient containers preceded by an
unrelated node, so that the two access nodes bound by the candidate sit at
positions 1 and 2 of the node list. -/
def c7Graph : Graph :=
  ⟨[⟨9, .other 0⟩, ⟨1, .access "A"⟩, ⟨2, .access "B"⟩, ⟨3, .access "C"⟩],
   [⟨0, 1, none, 2, none, ⟨"A", .range [(0, 0, 1)], none⟩⟩,
    ⟨1, 2, none, 3, none, ⟨"B", .range [(0, 0, 1)], none⟩⟩],
   fun eid => [eid], fun eid => [eid]⟩

/-- Whole program around `c7Graph`: all three containers transient, same
storage and kind, distinguished by element type. -/
def c7Sdfg : SDFG :=
  ⟨[("A", ⟨[1], 0, true, 0, 0⟩), ("B", ⟨[1], 0, true, 0, 1⟩), ("C", ⟨[1], 0, true, 0, 2⟩)],
   [c7Graph]⟩

/-- The candidate binding the forward rule's roles to positions 1 and 2. -/
def c7Cand : Candidate := ⟨1, 2⟩

/-- The program after applying the forward rule to `c7Sdfg` at `c7Cand`. -/
def c7Sdfg2 : SDFG := applyForward c7Sdfg 0 c7Cand

/-- Backward-rule coverage-rejection instance: `A[0:0]` is copied into the
two-element transient `B` (so the shortcut fails), and the downstream edge
reads `B[0:1]`, which the copied region does not cover. -/
def c2Graph : Graph :=
  ⟨[⟨0, .access "A"⟩, ⟨1, .access "B"⟩, ⟨2, .other 0⟩],
   [⟨0, 0, none, 1, none, ⟨"A", .range [(0, 0, 1)], none⟩⟩,
    ⟨1, 1, none, 2, none, ⟨"B", .range [(0, 1, 1)], none⟩⟩],
   fun eid => [eid], fun eid => [eid]⟩

/-- Whole program around `c2Graph`. -/
def c2Sdfg : SDFG :=
  ⟨[("A", ⟨[2], 0, true, 0, 0⟩), ("B", ⟨[2], 0, true, 0, 1⟩)], [c2Graph]⟩

/-- Forward-rule strict-mode instance: every non-strict precondition holds
but the single edge's region covers one element of the two-element `A`. -/
def c4Graph : Graph :=
  ⟨[⟨0, .access "A"⟩, ⟨1, .access "B"⟩],
   [⟨0, 0, none, 1, none, ⟨"A", .range [(0, 0, 1)], none⟩⟩],
   fun eid => [eid], fun eid => [eid]⟩

/-- Whole program around `c4Graph`. -/
def c4Sdfg : SDFG :=
  ⟨[("A", ⟨[2], 0, true, 0, 0⟩), ("B", ⟨[2], 0, false, 0, 1⟩)], [c4Graph]⟩

/-- Occurrence-gating instance: containers `A` and `B` each referenced by two
access nodes of the same state. -/
def c5Graph : Graph :=
  ⟨[⟨0, .access "A"⟩, ⟨1, .access "B"⟩, ⟨2, .access "A"⟩, ⟨3, .access "B"⟩],
   [⟨0, 0, none, 1, none, ⟨"A", .range [(0, 0, 1)], none⟩⟩],
   fun eid => [eid], fun eid => [eid]⟩

/-- Whole program around `c5Graph`. -/
def c5Sdfg : SDFG :=
  ⟨[("A", ⟨[1], 0, true, 0, 0⟩), ("B", ⟨[1], 0, true, 0, 1⟩)], [c5Graph]⟩

/-- Forward-rule apply instance: a producer feeds the transient `A`, which is
copied into `B`; the inbound edge's one-segment memlet path names `A`. -/
def c6Graph : Graph :=
  ⟨[⟨0, .other 0⟩, ⟨1, .access "A"⟩, ⟨2, .access "B"⟩],
   [⟨0, 0, none, 1, none, ⟨"A", .range [(0, 0, 1)], none⟩⟩,
    ⟨1, 1, none, 2, none, ⟨"A", .range [(0, 0, 1)], none⟩⟩],
   fun eid => [eid], fun eid => [eid]⟩

/-- Whether a node is a data node referencing the container named `nm`. -/
def isAccessNamed (nm : String) (n : Node) : Bool :=
  match n with
  | ⟨_, .access nm2⟩ => nm2 == nm
  | ⟨_, .other _⟩ => false

/-- The number of data-node occurrences of the container named `nm` across
every state of the program (the whole-program occurrence count of the spec,
which gates both rules). -/
def occurrencesByName (s : SDFG) (nm : String) : Nat :=
  ((s.states.map Graph.nodes).flatten).countP (isAccessNamed nm)

/-! Helper lemmas. -/

theorem removeNode_nodes (g : Graph) (nid : Nat) :
    (g.removeNode nid).nodes = g.nodes.filter (fun n => n.nid != nid) := rfl

theorem foldl_graph_nodes {A : Type} (f : Graph → A → Graph)
    (hf : ∀ acc a, (f acc a).nodes = acc.nodes) :
    ∀ (l : List A) (g : Graph), (l.foldl f g).nodes = g.nodes := by
  intro l
  induction l with
  | nil => intro g; rfl
  | cons x xs ih => intro g; rw [List.foldl_cons, ih, hf]

theorem fwdStep_nodes (inName outName : String) (outNid : Nat) (acc : Graph) (e : Edge) :
    (fwdStep inName outName outNid acc e).nodes = acc.nodes := rfl

theorem bwdStep_nodes (isub osub : Subset) (inName outName : String) (inNid : Nat)
    (acc : Graph) (oe : Edge) :
    (bwdStep isub osub inName outName inNid acc oe).nodes = acc.nodes := rfl

theorem applyForwardG_nodes (g : Graph) (iN oN : Node) :
    (applyForwardG g iN oN).nodes = g.nodes.filter (fun n => n.nid != iN.nid) := by
  unfold applyForwardG
  rw [removeNode_nodes,
    foldl_graph_nodes _ (fwdStep_nodes iN.dataName oN.dataName oN.nid) _ g]

theorem applyBackwardG_nodes (g : Graph) (iN oN : Node) (e : Edge) (rest : List Edge)
    (p : Subset × Subset)
    (hedge : g.edges_between iN.nid oN.nid = e :: rest)
    (hconn : connectingSubsets e.data iN.dataName = some p) :
    (applyBackwardG g iN oN).nodes = g.nodes.filter (fun n => n.nid != oN.nid) := by
  obtain ⟨isub, osub⟩ := p
  unfold applyBackwardG
  simp only [hedge, hconn]
  rw [removeNode_nodes,
    foldl_graph_nodes _ (bwdStep_nodes isub osub iN.dataName oN.dataName iN.nid) _ g]

theorem countOccAux_error (s : SDFG) (d : Descriptor) :
    ∀ (l : List Node) (err : Err), countOccAux s d l = .error err → err = .noDesc := by
  intro l
  induction l with
  | nil => intro err h; cases h
  | cons n rest ih =>
    obtain ⟨nid, kind⟩ := n
    cases kind with
    | other j => intro err h; exact ih err h
    | access nm =>
      intro err h
      simp only [countOccAux] at h
      cases hl : s.lookup nm with
      | none =>
        simp only [hl] at h
        exact (Except.error.inj h).symm
      | some dn =>
        simp only [hl] at h
        cases hr : countOccAux s d rest with
        | ok k => rw [hr] at h; simp [Except.map] at h
        | error err2 =>
          rw [hr] at h
          simp only [Except.map] at h
          exact (Except.error.inj h) ▸ ih err2 hr

theorem checkOutEdges_not_noEdge (o : Subset) (nm : String) :
    ∀ (l : List Edge), checkOutEdges o nm l ≠ .error .noEdge := by
  intro l
  induction l with
  | nil => simp [checkOutEdges]
  | cons e rest ih =>
    unfold checkOutEdges
    match hs : outEdgeSubset e nm with
    | none => simp
    | some s =>
      simp only
      split
      · exact ih
      · simp

theorem checkOutEdges_uncovered (o : Subset) (nm : String) :
    ∀ (l : List Edge), (∀ e ∈ l, outEdgeSubset e nm ≠ none) →
      (∃ e ∈ l, ∃ s, outEdgeSubset e nm = some s ∧ o.covers s = false) →
      checkOutEdges o nm l = .ok false := by
  intro l
  induction l with
  | nil => intro _ hex; simp at hex
  | cons e rest ih =>
    intro hwf hex
    unfold checkOutEdges
    match hs : outEdgeSubset e nm with
    | none => exact absurd hs (hwf e (by simp))
    | some s =>
      simp only
      by_cases hc : o.covers s
      · rw [if_pos hc]
        refine ih (fun x hx => hwf x (by simp [hx])) ?_
        obtain ⟨x, hx, sx, hsx, hcx⟩ := hex
        rcases List.mem_cons.mp hx with hhead | htail
        · subst hhead
          rw [hs] at hsx
          rw [Option.some.inj hsx] at hc
          rw [hc] at hcx
          cases hcx
        · exact ⟨x, htail, sx, hsx, hcx⟩
      · rw [if_neg hc]

theorem zip_self_any_ne : ∀ (l : List Int),
    ((l.zip l).any fun p => decide (p.1 ≠ p.2)) = false := by
  intro l
  induction l with
  | nil => rfl
  | cons x xs ih =>
    rw [List.zip_cons_cons, List.any_cons, ih]
    simp

theorem zip_any_ne_of_ne : ∀ (l₁ l₂ : List Int), l₁.length = l₂.length → l₁ ≠ l₂ →
    ((l₁.zip l₂).any fun p => decide (p.1 ≠ p.2)) = true := by
  intro l₁
  induction l₁ with
  | nil =>
    intro l₂ hlen hne
    cases l₂ with
    | nil => exact absurd rfl hne
    | cons y ys => cases hlen
  | cons x xs ih =>
    intro l₂ hlen hne
    cases l₂ with
    | nil => cases hlen
    | cons y ys =>
      by_cases hxy : x = y
      · subst hxy
        have hne2 : xs ≠ ys := fun h => hne (by rw [h])
        simp only [List.zip_cons_cons, List.any_cons]
        rw [ih ys (by simpa using hlen) hne2]
        simp
      · simp [List.zip_cons_cons, hxy]

theorem countOccAux_ge_names (s : SDFG) (d : Descriptor) (nm : String)
    (hlk : s.lookup nm = some d) :
    ∀ (l : List Node) (k : Nat), countOccAux s d l = .ok k →
      l.countP (isAccessNamed nm) ≤ k := by
  intro l
  induction l with
  | nil => intro k _; simp
  | cons n rest ih =>
    obtain ⟨nid, kind⟩ := n
    intro k hk
    rw [List.countP_cons]
    cases kind with
    | other j =>
      have h1 : isAccessNamed nm ⟨nid, .other j⟩ = false := rfl
      rw [h1]
      simpa using ih k hk
    | access nm2 =>
      have h1 : isAccessNamed nm ⟨nid, .access nm2⟩ = (nm2 == nm) := rfl
      rw [h1]
      simp only [countOccAux] at hk
      cases hl : s.lookup nm2 with
      | none =>
        simp only [hl] at hk
        exact Except.noConfusion hk
      | some dn =>
        simp only [hl] at hk
        cases hr : countOccAux s d rest with
        | error err => rw [hr] at hk; simp [Except.map] at hk
        | ok kr =>
          rw [hr] at hk
          simp only [Except.map] at hk
          have hkk : (if dn = d then 1 else 0) + kr = k := Except.ok.inj hk
          have hrest := ih kr hr
          by_cases heq : nm2 = nm
          · subst heq
            rw [hlk] at hl
            have hdd : dn = d := (Option.some.inj hl).symm
            subst hdd
            rw [if_pos rfl] at hkk
            simp only [beq_self_eq_true, if_pos]
            omega
          · rw [beq_false_of_ne heq]
            by_cases hdn : dn = d
            · rw [if_pos hdn] at hkk
              simp only [Bool.false_eq_true, if_false]
              omega
            · rw [if_neg hdn] at hkk
              simp only [Bool.false_eq_true, if_false]
              omega

/-! Claim theorems. -/

/-- C8: for both rules, `apply` never deletes the removed container's
descriptor from the whole-program registry: the name-to-descriptor mapping
after `apply` is exactly the one before, for every container name. -/
theorem c8_registry_frame (sdfg : SDFG) (state_id : Nat) (cand : Candidate) :
    (applyForward sdfg state_id cand).arrays = sdfg.arrays ∧
      (applyBackward sdfg state_id cand).arrays = sdfg.arrays := by
  constructor
  · unfold applyForward
    split
    · rfl
    · split <;> rfl
  · unfold applyBackward
    split
    · rfl
    · split <;> rfl

/-- C9 counterexample: the claim "no module- or class-level removal counter
is modified by a successful apply, regardless of any global configuration
flag" is false: on a candidate for which `can_be_applied` holds, running
apply with the `debugprint` flag set increments the forward rule's
class-level `_arrays_removed` counter. -/
theorem c9_counterexample :
    canBeApplied1 c7Graph c7Cand c7Sdfg false = .ok true ∧
      (applyForwardFull true ⟨c7Sdfg, 0, 0⟩ 0 c7Cand).fwd_removed ≠
        (⟨c7Sdfg, 0, 0⟩ : CoreState).fwd_removed := by
  constructor
  · decide
  · decide

/-- C9 (amended): a successful apply modifies, besides the graph, exactly the
applying rule's own class-level removal counter, which is incremented by one
precisely when the global `debugprint` flag is set; with the flag clear no
counter changes, and neither rule ever touches the other rule's counter. -/
theorem c9_counter_characterization (debugprint : Bool) (st : CoreState)
    (state_id : Nat) (cand : Candidate) :
    (applyForwardFull debugprint st state_id cand).fwd_removed =
        st.fwd_removed + (if debugprint then 1 else 0) ∧
      (applyForwardFull debugprint st state_id cand).bwd_removed = st.bwd_removed ∧
      (applyBackwardFull debugprint st state_id cand).bwd_removed =
        st.bwd_removed + (if debugprint then 1 else 0) ∧
      (applyBackwardFull debugprint st state_id cand).fwd_removed = st.fwd_removed := by
  cases debugprint <;> simp [applyForwardFull, applyBackwardFull]

/-- C3: refuted by the code (code bug): the backward rule's applicability
check does have an exceptional path. When an outgoing edge of the destination
node names a different container and carries no other-side region, the
coverage loop executes `subset = dcpy(e.data.other_subset)` — a copy of
`None` — and then calls `.offset` on it, raising an `AttributeError` instead
of reporting a negative match (lines 200-201 of the source; the intended
synthesis is the one at lines 176-181). -/
theorem c3_synthesize_crash :
    canBeApplied2 c3Graph ⟨0, 1⟩ c3Sdfg false = .error .noneOffset := by
  decide

/-- C1: backward rule region correctness. With the single connecting edge
copying producer region `[a, a+b)` into destination region `[c, c+b)` and a
downstream edge reading the destination at absolute position `c + d` with
`0 ≤ d < b`, after apply the lone surviving edge reads the producer's
container directly at absolute position `a + d`: the downstream region is
first offset by the destination-side region with `negative` true, then
composed into the producer-side region. -/
theorem c1_backward_region (a b c d : Int) (hd0 : 0 ≤ d) (hdb : d < b) :
    (applyBackwardG (c1Graph a b c d) nodeA nodeB).edges =
      [⟨1, 0, none, 2, none, ⟨"A", .indices [a + d], none⟩⟩] := by
  have harith : a + (c + d - c) = a + d := by ring
  have base : (applyBackwardG (c1Graph a b c d) nodeA nodeB).edges =
      [⟨1, 0, none, 2, none, ⟨"A", .indices [a + (c + d - c)], none⟩⟩] := rfl
  rw [base, harith]

/-- C1 witness: the backward region theorem at `a = 10`, `b = 5`, `c = 2`,
`d = 3`: the read at absolute destination position 5 resolves to absolute
producer position 13. -/
theorem c1_backward_region_witness :
    (0 : Int) ≤ 3 ∧ (3 : Int) < 5 ∧
      (applyBackwardG (c1Graph 10 5 2 3) nodeA nodeB).edges =
        [⟨1, 0, none, 2, none, ⟨"A", .indices [13], none⟩⟩] :=
  ⟨by decide, by decide, c1_backward_region 10 5 2 3 (by decide) (by decide)⟩

/-- C7 counterexample: the claim "re-running can_be_applied for the same
candidate on the resulting graph returns false" is false at a concrete input.
On a chain `A → B → C` of transient one-element containers preceded by an
unrelated node, the forward rule's check succeeds for the candidate binding
positions 1 and 2; after apply removes `A`, the same positional candidate now
binds `B` and `C` — and the re-run check succeeds again instead of reporting
no match. -/
theorem c7_counterexample :
    canBeApplied1 c7Graph c7Cand c7Sdfg false = .ok true ∧
      canBeApplied1 (c7Sdfg2.states.headD emptyGraph) c7Cand c7Sdfg2 false = .ok true := by
  constructor
  · decide
  · decide

/-- C7 (amended): after a successful apply the removed node itself is gone —
the resulting node list is exactly the previous one with the bound node
filtered out, for both rules — but because candidates bind nodes by position
in the node list, re-running `can_be_applied` with the same candidate on the
mutated graph evaluates a different (shifted) node pair and need not return
false. -/
theorem c7_removed_node_absent (g : Graph) (iN oN : Node) (e : Edge) (rest : List Edge)
    (p : Subset × Subset)
    (hedge : g.edges_between iN.nid oN.nid = e :: rest)
    (hconn : connectingSubsets e.data iN.dataName = some p) :
    (applyForwardG g iN oN).nodes = g.nodes.filter (fun n => n.nid != iN.nid) ∧
      (applyBackwardG g iN oN).nodes = g.nodes.filter (fun n => n.nid != oN.nid) :=
  ⟨applyForwardG_nodes g iN oN, applyBackwardG_nodes g iN oN e rest p hedge hconn⟩

/-- C7 witness: the amended statement at the concrete backward-rule scenario
graph with `a = 0`, `b = 1`, `c = 0`, `d = 0`. -/
theorem c7_removed_node_absent_witness :
    (applyForwardG (c1Graph 0 1 0 0) nodeA nodeB).nodes =
        (c1Graph 0 1 0 0).nodes.filter (fun n => n.nid != nodeA.nid) ∧
      (applyBackwardG (c1Graph 0 1 0 0) nodeA nodeB).nodes =
        (c1Graph 0 1 0 0).nodes.filter (fun n => n.nid != nodeB.nid) :=
  c7_removed_node_absent (c1Graph 0 1 0 0) nodeA nodeB
    ⟨0, 0, none, 1, none, ⟨"A", .range [(0, 0 + 1 - 1, 1)], some (.range [(0, 0 + 1 - 1, 1)])⟩⟩
    [] (Subset.range [(0, 0 + 1 - 1, 1)], Subset.range [(0, 0 + 1 - 1, 1)])
    (by decide) (by decide)

/-- C10: in both rules the indexing
`graph.edges_between(in_array, out_array)[0]` is guarded by the candidate
shape: when the candidate's two roles resolve to nodes connected by at least
one edge — as every candidate produced by the two-role path-template matcher
is — the indexing is in range and the out-of-bounds error branch is
unreachable in either rule's check. -/
theorem c10_index_safe (g : Graph) (cand : Candidate) (sdfg : SDFG) (strict : Bool)
    (iN : Node) (inName : String) (oN : Node) (outName : String)
    (h1 : resolveAccess g cand.inIdx = .ok (iN, inName))
    (h2 : resolveAccess g cand.outIdx = .ok (oN, outName))
    (hne : g.edges_between iN.nid oN.nid ≠ []) :
    canBeApplied1 g cand sdfg strict ≠ .error .noEdge ∧
      canBeApplied2 g cand sdfg strict ≠ .error .noEdge := by
  obtain ⟨e0, rest, hcons⟩ := List.exists_cons_of_ne_nil hne
  constructor
  · simp only [canBeApplied1, h1, h2]
    cases hin : sdfg.lookup inName with
    | none => simp
    | some in_desc =>
      cases hout : sdfg.lookup outName with
      | none => simp
      | some out_desc =>
        simp only
        split
        · simp
        · split
          · simp
          · split
            · simp
            · split
              · simp
              · cases hocc : countOcc sdfg in_desc with
                | error err =>
                  intro h
                  have h3 := countOccAux_error sdfg in_desc _ err hocc
                  rw [h3] at h
                  exact Err.noConfusion (Except.error.inj h)
                | ok occ =>
                  simp only
                  split
                  · simp
                  · split
                    · simp
                    · split
                      · simp only [hcons]
                        split <;> simp
                      · simp
  · simp only [canBeApplied2, h1, h2]
    cases hin : sdfg.lookup inName with
    | none => simp
    | some in_desc =>
      cases hout : sdfg.lookup outName with
      | none => simp
      | some out_desc =>
        simp only
        split
        · simp
        · split
          · simp
          · split
            · simp
            · split
              · simp
              · cases hocc : countOcc sdfg out_desc with
                | error err =>
                  intro h
                  have h3 := countOccAux_error sdfg out_desc _ err hocc
                  rw [h3] at h
                  exact Err.noConfusion (Except.error.inj h)
                | ok occ =>
                  simp only
                  split
                  · simp
                  · simp only [hcons]
                    cases hc : connectingSubsets e0.data inName with
                    | none => simp
                    | some p =>
                      obtain ⟨isub, osub⟩ := p
                      simp only
                      split
                      · simp
                      · exact checkOutEdges_not_noEdge osub outName _


/-- C10 witness: the safety statement at the coverage-rejection instance,
where the candidate's roles resolve to the connected nodes 0 and 1. -/
theorem c10_index_safe_witness :
    canBeApplied1 c2Graph ⟨0, 1⟩ c2Sdfg true ≠ .error .noEdge ∧
      canBeApplied2 c2Graph ⟨0, 1⟩ c2Sdfg true ≠ .error .noEdge :=
  c10_index_safe c2Graph ⟨0, 1⟩ c2Sdfg true ⟨0, .access "A"⟩ "A" ⟨1, .access "B"⟩ "B"
    (by decide) (by decide) (by decide)

/-- C4: forward rule strict-mode gating. If the sole connecting edge's region
does not have per-dimension size exactly equal to the source container's
shape (same rank, some extent different), the strict-mode check returns
false even when every other precondition holds. -/
theorem c4_strict_gate (g : Graph) (cand : Candidate) (sdfg : SDFG)
    (iN : Node) (inName : String) (oN : Node) (outName : String)
    (in_desc out_desc : Descriptor) (e : Edge) (rest : List Edge) (k : Nat)
    (h1 : resolveAccess g cand.inIdx = .ok (iN, inName))
    (h2 : resolveAccess g cand.outIdx = .ok (oN, outName))
    (hin : sdfg.lookup inName = some in_desc)
    (hout : sdfg.lookup outName = some out_desc)
    (hdeg : g.out_degree iN.nid = 1)
    (htr : in_desc.transient = true)
    (hst : in_desc.storage = out_desc.storage)
    (hkind : in_desc.kind = out_desc.kind)
    (hocc : countOcc sdfg in_desc = .ok k) (hk : k ≤ 1)
    (hshape : in_desc.shape = out_desc.shape)
    (hedge : g.edges_between iN.nid oN.nid = e :: rest)
    (hrank : e.data.subset.size.length = in_desc.shape.length)
    (hsz : e.data.subset.size ≠ in_desc.shape) :
    canBeApplied1 g cand sdfg true = .ok false := by
  have hk2 : ¬ (k > 1) := by omega
  have hany := zip_any_ne_of_ne e.data.subset.size in_desc.shape hrank hsz
  have hcond : ¬ (in_desc.shape.length ≠ out_desc.shape.length ∨
      ((in_desc.shape.zip out_desc.shape).any fun p => decide (p.1 ≠ p.2)) = true) := by
    rw [← hshape]
    intro hor
    rcases hor with h | h
    · exact h rfl
    · rw [zip_self_any_ne] at h
      cases h
  simp only [canBeApplied1, h1, h2, hin, hout, hdeg, htr, hocc, hedge]
  rw [if_neg (by simp), if_neg (by simp), if_neg (by simp [hst]), if_neg (by simp [hkind]),
    if_neg hk2, if_neg hcond]
  simp only [List.any_eq_true, decide_eq_true_eq] at hany
  obtain ⟨⟨x, y⟩, hm, hne⟩ := hany
  simp
  exact ⟨x, y, hm, hne⟩

/-- C4 witness: the strict gate at a concrete instance where the sole edge
covers one element of the two-element source container and every non-strict
precondition holds. -/
theorem c4_strict_gate_witness :
    canBeApplied1 c4Graph ⟨0, 1⟩ c4Sdfg true = .ok false :=
  c4_strict_gate c4Graph ⟨0, 1⟩ c4Sdfg ⟨0, .access "A"⟩ "A" ⟨1, .access "B"⟩ "B"
    ⟨[2], 0, true, 0, 0⟩ ⟨[2], 0, false, 0, 1⟩
    ⟨0, 0, none, 1, none, ⟨"A", .range [(0, 0, 1)], none⟩⟩ [] 1
    (by decide) (by decide) (by decide) (by decide) (by decide) (by decide)
    (by decide) (by decide) (by decide) (by decide) (by decide) (by decide)
    (by decide) (by decide)

/-- C5: whole-program occurrence gating. For either rule, whenever the whole
program contains more than one data-node occurrence referencing the
candidate's eliminable container (the source container for the forward rule,
the destination container for the backward rule), the rule's check returns
false. -/
theorem c5_occurrence_gate (g : Graph) (cand : Candidate) (sdfg : SDFG) (strict : Bool)
    (iN : Node) (inName : String) (oN : Node) (outName : String)
    (in_desc out_desc : Descriptor) (k1 k2 : Nat)
    (h1 : resolveAccess g cand.inIdx = .ok (iN, inName))
    (h2 : resolveAccess g cand.outIdx = .ok (oN, outName))
    (hin : sdfg.lookup inName = some in_desc)
    (hout : sdfg.lookup outName = some out_desc) :
    (countOcc sdfg in_desc = .ok k1 → 1 < occurrencesByName sdfg inName →
      canBeApplied1 g cand sdfg strict = .ok false) ∧
      (countOcc sdfg out_desc = .ok k2 → 1 < occurrencesByName sdfg outName →
        canBeApplied2 g cand sdfg strict = .ok false) := by
  constructor
  · intro hocc hcount
    have hle := countOccAux_ge_names sdfg in_desc inName hin _ k1 hocc
    have hgt : k1 > 1 := lt_of_lt_of_le hcount hle
    simp only [canBeApplied1, h1, h2, hin, hout, hocc]
    split
    · rfl
    · split
      · rfl
      · split
        · rfl
        · split
          · rfl
          · rfl
  · intro hocc hcount
    have hle := countOccAux_ge_names sdfg out_desc outName hout _ k2 hocc
    have hgt : k2 > 1 := lt_of_lt_of_le hcount hle
    simp only [canBeApplied2, h1, h2, hin, hout, hocc]
    split
    · rfl
    · split
      · rfl
      · split
        · rfl
        · split
          · rfl
          · rfl

/-- C5 witness: both rules reject the candidate on a program in which both
bound containers are referenced by two data nodes each. -/
theorem c5_occurrence_gate_witness :
    canBeApplied1 c5Graph ⟨0, 1⟩ c5Sdfg false = .ok false ∧
      canBeApplied2 c5Graph ⟨0, 1⟩ c5Sdfg false = .ok false :=
  ⟨(c5_occurrence_gate c5Graph ⟨0, 1⟩ c5Sdfg false ⟨0, .access "A"⟩ "A" ⟨1, .access "B"⟩ "B"
      ⟨[1], 0, true, 0, 0⟩ ⟨[1], 0, true, 0, 1⟩ 2 2
      (by decide) (by decide) (by decide) (by decide)).1 (by decide) (by decide),
    (c5_occurrence_gate c5Graph ⟨0, 1⟩ c5Sdfg false ⟨0, .access "A"⟩ "A" ⟨1, .access "B"⟩ "B"
      ⟨[1], 0, true, 0, 0⟩ ⟨[1], 0, true, 0, 1⟩ 2 2
      (by decide) (by decide) (by decide) (by decide)).2 (by decide) (by decide)⟩

/-- C2: backward rule coverage rejection. When the size-equality shortcut
does not hold (the producer-side region's element count differs from the
product of the destination container's shape) and some outgoing edge of the
destination node carries a region not covered by the destination-side region
of the connecting edge, the check returns false — and since the check is the
sole gate before apply, the rule performs no partial application for such a
candidate. -/
theorem c2_coverage_reject (g : Graph) (cand : Candidate) (sdfg : SDFG) (strict : Bool)
    (iN : Node) (inName : String) (oN : Node) (outName : String)
    (in_desc out_desc : Descriptor) (k : Nat) (e : Edge) (rest : List Edge)
    (isub osub : Subset)
    (h1 : resolveAccess g cand.inIdx = .ok (iN, inName))
    (h2 : resolveAccess g cand.outIdx = .ok (oN, outName))
    (hin : sdfg.lookup inName = some in_desc)
    (hout : sdfg.lookup outName = some out_desc)
    (hocc : countOcc sdfg out_desc = .ok k)
    (hedge : g.edges_between iN.nid oN.nid = e :: rest)
    (hconn : connectingSubsets e.data inName = some (isub, osub))
    (hshort : isub.num_elements ≠ prodShape out_desc.shape)
    (hwf : ∀ oe ∈ g.out_edges oN.nid, outEdgeSubset oe outName ≠ none)
    (hex : ∃ oe ∈ g.out_edges oN.nid, ∃ s,
      outEdgeSubset oe outName = some s ∧ osub.covers s = false) :
    canBeApplied2 g cand sdfg strict = .ok false := by
  simp only [canBeApplied2, h1, h2, hin, hout, hocc, hedge, hconn]
  split
  · rfl
  · split
    · rfl
    · split
      · rfl
      · split
        · rfl
        · split
          · rfl
          · exact checkOutEdges_uncovered osub outName _ hwf hex

/-- C2 witness: the coverage rejection at the concrete instance where
`A[0:0]` is copied into the two-element transient `B` and a downstream edge
reads `B[0:1]`. -/
theorem c2_coverage_reject_witness :
    canBeApplied2 c2Graph ⟨0, 1⟩ c2Sdfg false = .ok false :=
  c2_coverage_reject c2Graph ⟨0, 1⟩ c2Sdfg false ⟨0, .access "A"⟩ "A" ⟨1, .access "B"⟩ "B"
    ⟨[2], 0, true, 0, 0⟩ ⟨[2], 0, true, 0, 1⟩ 1
    ⟨0, 0, none, 1, none, ⟨"A", .range [(0, 0, 1)], none⟩⟩ []
    (.range [(0, 0, 1)]) (.range [(0, 0, 1)])
    (by decide) (by decide) (by decide) (by decide) (by decide) (by decide)
    (by decide) (by decide) (by decide)
    ⟨⟨1, 1, none, 2, none, ⟨"B", .range [(0, 1, 1)], none⟩⟩, by decide,
      .range [(0, 1, 1)], by decide, by decide⟩

/-! Lemmas for the forward-apply characterization. -/

theorem renOn_eid (i o : String) (ids : List Nat) (e : Edge) :
    (renOn i o ids e).eid = e.eid := by
  unfold renOn; split <;> rfl

theorem renOn_src (i o : String) (ids : List Nat) (e : Edge) :
    (renOn i o ids e).src = e.src := by
  unfold renOn; split <;> rfl

theorem renOn_dst (i o : String) (ids : List Nat) (e : Edge) :
    (renOn i o ids e).dst = e.dst := by
  unfold renOn; split <;> rfl

theorem renOn_nil (i o : String) (e : Edge) : renOn i o [] e = e := by
  unfold renOn
  rw [if_neg]
  intro h
  exact absurd h.1 (List.not_mem_nil e.eid)

theorem renOn_self (i o : String) (ids : List Nat) (e : Edge) (h : e.data.data = o) :
    renOn i o ids e = e := by
  obtain ⟨eid, src, sc, dst, dc, data⟩ := e
  obtain ⟨d, sub, os⟩ := data
  simp only at h
  subst h
  unfold renOn
  split <;> rfl

theorem renOn_comp (i o : String) (p q : List Nat) (e : Edge) :
    renOn i o q (renOn i o p e) = renOn i o (p ++ q) e := by
  by_cases h1 : e.eid ∈ p ∧ e.data.data = i
  · have hL : renOn i o p e = { e with data := { e.data with data := o } } :=
      if_pos h1
    have hR : renOn i o (p ++ q) e = { e with data := { e.data with data := o } } :=
      if_pos ⟨List.mem_append.mpr (Or.inl h1.1), h1.2⟩
    rw [hL, hR]
    exact renOn_self i o q _ rfl
  · rw [show renOn i o p e = e from if_neg h1]
    by_cases hd : e.data.data = i
    · have hp : e.eid ∉ p := fun hh => h1 ⟨hh, hd⟩
      by_cases hq : e.eid ∈ q
      · rw [show renOn i o q e = { e with data := { e.data with data := o } } from
          if_pos ⟨hq, hd⟩,
          show renOn i o (p ++ q) e = { e with data := { e.data with data := o } } from
          if_pos ⟨List.mem_append.mpr (Or.inr hq), hd⟩]
      · rw [show renOn i o q e = e from if_neg (fun hh => hq hh.1),
          show renOn i o (p ++ q) e = e from
          if_neg (fun hh => (List.mem_append.mp hh.1).elim hp hq)]
    · rw [show renOn i o q e = e from if_neg (fun hh => hd hh.2),
        show renOn i o (p ++ q) e = e from if_neg (fun hh => hd hh.2)]

theorem renOn_redirect (i o : String) (ids : List Nat) (e : Edge) (x : Nat) :
    renOn i o ids { e with dst := x } = { renOn i o ids e with dst := x } := by
  obtain ⟨eid, src, sc, dst, dc, data⟩ := e
  unfold renOn
  dsimp only
  by_cases h : eid ∈ ids ∧ data.data = i
  · rw [if_pos h, if_pos h]
  · rw [if_neg h, if_neg h]

theorem renOn_redirect_data (i o : String) (ids : List Nat) (e : Edge) (x : Nat) :
    ({ e with dst := x, data := (renOn i o ids e).data } : Edge) =
      { renOn i o ids e with dst := x } := by
  obtain ⟨eid, src, sc, dst, dc, data⟩ := e
  unfold renOn
  dsimp only
  by_cases h : eid ∈ ids ∧ data.data = i
  · rw [if_pos h]
  · rw [if_neg h]

theorem map_renOn_comp (i o : String) (p q : List Nat) (l : List Edge) :
    (l.map (renOn i o p)).map (renOn i o q) = l.map (renOn i o (p ++ q)) := by
  rw [List.map_map]
  induction l with
  | nil => rfl
  | cons x xs ih =>
    rw [List.map_cons, List.map_cons, ih]
    rw [show (renOn i o q ∘ renOn i o p) x = renOn i o (p ++ q) x from renOn_comp i o p q x]

theorem find?_eid_map_filter (e₀ : Edge) (f : Edge → Edge) (P : Edge → Bool)
    (hf : ∀ x, (f x).eid = x.eid) :
    ∀ (l : List Edge), (l.map Edge.eid).Nodup → e₀ ∈ l → P e₀ = true →
      ((l.filter P).map f).find? (fun pe => pe.eid == e₀.eid) = some (f e₀) := by
  intro l
  induction l with
  | nil => intro _ he; cases he
  | cons x xs ih =>
    intro hnd he hP
    rw [List.map_cons, List.nodup_cons] at hnd
    rcases List.mem_cons.mp he with rfl | hmem
    · rw [List.filter_cons_of_pos hP, List.map_cons]
      rw [List.find?_cons_of_pos]
      rw [hf]
      exact beq_self_eq_true e₀.eid
    · have hne : x.eid ≠ e₀.eid := fun hh =>
        hnd.1 (hh ▸ List.mem_map_of_mem Edge.eid hmem)
      by_cases hPx : P x = true
      · rw [List.filter_cons_of_pos hPx, List.map_cons]
        rw [List.find?_cons_of_neg]
        · exact ih hnd.2 hmem hP
        · rw [hf]
          simp [hne]
      · rw [List.filter_cons_of_neg (by simp [hPx])]
        exact ih hnd.2 hmem hP

theorem foldl_graph_proj {A B : Type} (proj : Graph → B) (f : Graph → A → Graph)
    (hf : ∀ acc a, proj (f acc a) = proj acc) :
    ∀ (l : List A) (g : Graph), proj (l.foldl f g) = proj g := by
  intro l
  induction l with
  | nil => intro g; rfl
  | cons x xs ih => intro g; rw [List.foldl_cons, ih, hf]

theorem eq_of_mem_eid (l : List Edge) (hnd : (l.map Edge.eid).Nodup) :
    ∀ x ∈ l, ∀ y ∈ l, x.eid = y.eid → x = y :=
  fun x hx y hy h => List.inj_on_of_nodup_map hnd hx hy h

theorem filter_eid_map (f : Edge → Edge) (hf : ∀ x, (f x).eid = x.eid) (q : Nat → Bool) :
    ∀ (l : List Edge),
      (l.map f).filter (fun e => q e.eid) = (l.filter (fun e => q e.eid)).map f := by
  intro l
  induction l with
  | nil => rfl
  | cons x xs ih =>
    rw [List.map_cons, List.filter_cons, List.filter_cons, hf]
    by_cases hq : q x.eid = true
    · simp only [hq, if_pos, List.map_cons, ih]
    · simp only [hq, Bool.false_eq_true, if_neg, ih, not_false_eq_true]

theorem notMem_append_eid (ids : List Nat) (j x : Nat) :
    (decide (x ∉ ids) && (x != j)) = decide (x ∉ ids ++ [j]) := by
  by_cases h1 : x ∈ ids <;> by_cases h2 : x = j <;> simp [h1, h2]

theorem find?_or_some {l₁ l₂ : List Edge} {p : Edge → Bool} {a : Edge}
    (h : l₁.find? p = some a) : (l₁ ++ l₂).find? p = some a := by
  rw [List.find?_append, h, Option.or_some]

theorem fwdStep_edges (g : Graph) (inName outName : String) (outNid : Nat)
    (hnd : (g.edges.map Edge.eid).Nodup)
    (ps rs' : List Edge) (e₀ : Edge) (acc : Graph)
    (hsub : (ps ++ e₀ :: rs').Sublist g.edges)
    (hpath : acc.memlet_path = g.memlet_path)
    (hacc : acc.edges =
      (g.edges.filter (fun e => e.eid ∉ ps.map Edge.eid)).map
        (renOn inName outName ((ps.map (fun e => g.memlet_path e.eid)).flatten)) ++
        ps.map (fun e =>
          { renOn inName outName ((ps.map (fun e2 => g.memlet_path e2.eid)).flatten) e with
            dst := outNid })) :
    (fwdStep inName outName outNid acc e₀).edges =
      (g.edges.filter (fun e => e.eid ∉ (ps ++ [e₀]).map Edge.eid)).map
        (renOn inName outName (((ps ++ [e₀]).map (fun e => g.memlet_path e.eid)).flatten)) ++
        (ps ++ [e₀]).map (fun e =>
          { renOn inName outName
              (((ps ++ [e₀]).map (fun e2 => g.memlet_path e2.eid)).flatten) e with
            dst := outNid }) := by
  have hnd' : ((ps ++ e₀ :: rs').map Edge.eid).Nodup :=
    (hsub.map Edge.eid).nodup hnd
  have hdisjall := by
    rw [List.map_append] at hnd'
    exact List.disjoint_of_nodup_append hnd'
  have he₀mem : e₀ ∈ g.edges := hsub.subset (by simp)
  have he₀nps : e₀.eid ∉ ps.map Edge.eid := by
    intro hm
    exact hdisjall hm (by simp)
  have hdisj : ∀ x ∈ ps, x.eid ≠ e₀.eid := by
    intro x hx heq
    apply hdisjall (List.mem_map_of_mem Edge.eid hx)
    rw [heq]
    simp
  have hpids : ((ps ++ [e₀]).map (fun e => g.memlet_path e.eid)).flatten =
      (ps.map (fun e => g.memlet_path e.eid)).flatten ++ g.memlet_path e₀.eid := by
    rw [List.map_append, List.flatten_append]
    simp
  have heids : (ps ++ [e₀]).map Edge.eid = ps.map Edge.eid ++ [e₀.eid] := by
    rw [List.map_append]
    rfl
  -- the renamed accumulator
  have hacc1 : (renameAlong acc (g.memlet_path e₀.eid) inName outName).edges =
      (g.edges.filter (fun e => e.eid ∉ ps.map Edge.eid)).map
        (renOn inName outName
          ((ps.map (fun e => g.memlet_path e.eid)).flatten ++ g.memlet_path e₀.eid)) ++
        ps.map (fun e =>
          { renOn inName outName
              ((ps.map (fun e2 => g.memlet_path e2.eid)).flatten ++ g.memlet_path e₀.eid) e
            with dst := outNid }) := by
    show acc.edges.map (renOn inName outName (g.memlet_path e₀.eid)) = _
    rw [hacc, List.map_append, map_renOn_comp, List.map_map]
    congr 1
    have hfun : (renOn inName outName (g.memlet_path e₀.eid) ∘ fun e =>
        { renOn inName outName ((ps.map (fun e2 => g.memlet_path e2.eid)).flatten) e with
          dst := outNid }) = fun e =>
        { renOn inName outName
            ((ps.map (fun e2 => g.memlet_path e2.eid)).flatten ++ g.memlet_path e₀.eid) e with
          dst := outNid } := by
      funext e
      show renOn inName outName (g.memlet_path e₀.eid)
          { renOn inName outName ((ps.map (fun e2 => g.memlet_path e2.eid)).flatten) e with
            dst := outNid } = _
      rw [renOn_redirect, renOn_comp]
    rw [hfun]
  -- the aliased memlet fetched for the redirect
  have hm : currentMemlet (renameAlong acc (g.memlet_path e₀.eid) inName outName) e₀.eid
      e₀.data =
      (renOn inName outName
        ((ps.map (fun e => g.memlet_path e.eid)).flatten ++ g.memlet_path e₀.eid) e₀).data := by
    have hfind := find?_eid_map_filter e₀
      (renOn inName outName
        ((ps.map (fun e => g.memlet_path e.eid)).flatten ++ g.memlet_path e₀.eid))
      (fun e => decide (e.eid ∉ ps.map Edge.eid))
      (renOn_eid inName outName _) g.edges hnd he₀mem (decide_eq_true he₀nps)
    unfold currentMemlet
    rw [hacc1, find?_or_some hfind]
  unfold fwdStep
  simp only [hpath]
  rw [hm]
  show ((renameAlong acc (g.memlet_path e₀.eid) inName outName).edges.filter
      (fun e => e.eid != e₀.eid)) ++ [_] = _
  rw [hacc1, List.filter_append]
  -- left half: combined filter
  have hleft : (((g.edges.filter (fun e => e.eid ∉ ps.map Edge.eid)).map
      (renOn inName outName
        ((ps.map (fun e => g.memlet_path e.eid)).flatten ++ g.memlet_path e₀.eid))).filter
      (fun e => e.eid != e₀.eid)) =
      (g.edges.filter (fun e => e.eid ∉ (ps ++ [e₀]).map Edge.eid)).map
        (renOn inName outName
          ((ps.map (fun e => g.memlet_path e.eid)).flatten ++ g.memlet_path e₀.eid)) := by
    rw [filter_eid_map _ (renOn_eid inName outName _) (fun x => x != e₀.eid)]
    congr 1
    rw [List.filter_filter]
    refine List.filter_congr ?_
    intro e _
    rw [heids]
    show ((e.eid != e₀.eid) && decide (e.eid ∉ ps.map Edge.eid)) = _
    by_cases h1 : e.eid ∈ ps.map Edge.eid <;> by_cases h2 : e.eid = e₀.eid <;>
      simp [h1, h2]
  -- right half: the already-redirected edges are untouched
  have hright : ((ps.map (fun e =>
      { renOn inName outName
          ((ps.map (fun e2 => g.memlet_path e2.eid)).flatten ++ g.memlet_path e₀.eid) e with
        dst := outNid })).filter (fun e => e.eid != e₀.eid)) =
      ps.map (fun e =>
        { renOn inName outName
            ((ps.map (fun e2 => g.memlet_path e2.eid)).flatten ++ g.memlet_path e₀.eid) e with
          dst := outNid }) := by
    rw [List.filter_eq_self]
    intro a ha
    obtain ⟨e, he, rfl⟩ := List.mem_map.mp ha
    have : ({ renOn inName outName
        ((ps.map (fun e2 => g.memlet_path e2.eid)).flatten ++ g.memlet_path e₀.eid) e with
      dst := outNid } : Edge).eid = e.eid := renOn_eid inName outName _ e
    rw [this]
    simpa using hdisj e he
  rw [hleft, hright, hpids, heids]
  have hredir := renOn_redirect_data inName outName
    ((ps.map (fun e => g.memlet_path e.eid)).flatten ++ g.memlet_path e₀.eid) e₀ outNid
  rw [hredir, List.map_append, List.append_assoc]
  rfl

theorem fwdLoop_edges (g : Graph) (inName outName : String) (outNid : Nat)
    (hnd : (g.edges.map Edge.eid).Nodup) :
    ∀ (rs ps : List Edge) (acc : Graph),
      (ps ++ rs).Sublist g.edges →
      acc.memlet_path = g.memlet_path →
      acc.edges =
        (g.edges.filter (fun e => e.eid ∉ ps.map Edge.eid)).map
          (renOn inName outName ((ps.map (fun e => g.memlet_path e.eid)).flatten)) ++
          ps.map (fun e =>
            { renOn inName outName ((ps.map (fun e2 => g.memlet_path e2.eid)).flatten) e with
              dst := outNid }) →
      (rs.foldl (fwdStep inName outName outNid) acc).edges =
        (g.edges.filter (fun e => e.eid ∉ (ps ++ rs).map Edge.eid)).map
          (renOn inName outName (((ps ++ rs).map (fun e => g.memlet_path e.eid)).flatten)) ++
          (ps ++ rs).map (fun e =>
            { renOn inName outName
                (((ps ++ rs).map (fun e2 => g.memlet_path e2.eid)).flatten) e with
              dst := outNid }) := by
  intro rs
  induction rs with
  | nil =>
    intro ps acc _ _ hacc
    rw [List.append_nil]
    exact hacc
  | cons e₀ rs' ih =>
    intro ps acc hsub hpath hacc
    rw [List.foldl_cons]
    have hkey := fwdStep_edges g inName outName outNid hnd ps rs' e₀ acc hsub hpath hacc
    have hpath' : (fwdStep inName outName outNid acc e₀).memlet_path = g.memlet_path := hpath
    have hl : ps ++ e₀ :: rs' = (ps ++ [e₀]) ++ rs' := by simp
    rw [hl]
    have hsub' : ((ps ++ [e₀]) ++ rs').Sublist g.edges := by rw [← hl]; exact hsub
    exact ih (ps ++ [e₀]) (fwdStep inName outName outNid acc e₀) hsub' hpath' hkey

theorem filter_srcdst_map (f : Edge → Edge) (hsrc : ∀ x, (f x).src = x.src)
    (hdst : ∀ x, (f x).dst = x.dst) (q : Nat → Nat → Bool) :
    ∀ (l : List Edge),
      (l.map f).filter (fun e => q e.src e.dst) =
        (l.filter (fun e => q e.src e.dst)).map f := by
  intro l
  induction l with
  | nil => rfl
  | cons x xs ih =>
    rw [List.map_cons, List.filter_cons, List.filter_cons, hsrc, hdst]
    by_cases hq : q x.src x.dst = true
    · simp only [hq, if_pos, List.map_cons, ih]
    · simp only [hq, Bool.false_eq_true, if_neg, ih, not_false_eq_true]

/-- C6: the forward rule's apply performs exactly the specified rewrite: every
edge segment lying on the memlet path of an inbound edge of the source node
and naming the source container is renamed to the destination container; each
inbound edge is re-pointed to terminate at the destination node with the same
source endpoint, connectors and region descriptor; and the source node (and
no other node) is removed from the graph. Stated as equality with the
specification-side function `applyForwardSpecFn`, for graphs with distinct
edge ids, no self-loop at the source node, and distinct candidate nodes. -/
theorem c6_apply_forward_exact (g : Graph) (iN oN : Node)
    (hnd : (g.edges.map Edge.eid).Nodup)
    (hnl : ∀ e ∈ g.edges, e.dst = iN.nid → e.src ≠ iN.nid)
    (hio : iN.nid ≠ oN.nid) :
    applyForwardG g iN oN = applyForwardSpecFn g iN oN := by
  have hbase : g.edges =
      (g.edges.filter (fun e => e.eid ∉ ([] : List Edge).map Edge.eid)).map
        (renOn iN.dataName oN.dataName
          ((([] : List Edge).map (fun e => g.memlet_path e.eid)).flatten)) ++
      ([] : List Edge).map (fun e =>
        { renOn iN.dataName oN.dataName
            ((([] : List Edge).map (fun e2 => g.memlet_path e2.eid)).flatten) e with
          dst := oN.nid }) := by
    have hrid : renOn iN.dataName oN.dataName ([] : List Nat) = id := by
      funext e
      exact renOn_nil _ _ e
    simp [hrid]
  have hsub0 : (([] : List Edge) ++ g.in_edges iN.nid).Sublist g.edges := by
    rw [List.nil_append]
    exact List.filter_sublist g.edges
  have hfold := fwdLoop_edges g iN.dataName oN.dataName oN.nid hnd (g.in_edges iN.nid) [] g
    hsub0 rfl hbase
  rw [List.nil_append] at hfold
  have heiddst : ∀ e ∈ g.edges,
      (e.eid ∈ (g.in_edges iN.nid).map Edge.eid ↔ e.dst = iN.nid) := by
    intro e he
    constructor
    · intro hm
      obtain ⟨y, hy, hye⟩ := List.mem_map.mp hm
      simp only [Graph.in_edges] at hy
      have hy2 : y ∈ g.edges := (List.mem_filter.mp hy).1
      have hyd : (y.dst == iN.nid) = true := (List.mem_filter.mp hy).2
      have hxy : y = e := eq_of_mem_eid g.edges hnd y hy2 e he hye
      subst hxy
      simpa using hyd
    · intro hd
      show e.eid ∈ (g.edges.filter (fun e2 => e2.dst == iN.nid)).map Edge.eid
      exact List.mem_map_of_mem Edge.eid (List.mem_filter.mpr ⟨he, by simp [hd]⟩)
  apply Graph.ext
  · -- node lists agree
    rw [applyForwardG_nodes]
    rfl
  · -- edge lists agree
    show (List.foldl (fwdStep iN.dataName oN.dataName oN.nid) g
        (g.in_edges iN.nid)).edges.filter
          (fun e => e.src != iN.nid && e.dst != iN.nid) = _
    rw [hfold, List.filter_append]
    have hA : (((g.edges.filter
        (fun e => e.eid ∉ (g.in_edges iN.nid).map Edge.eid)).map
        (renOn iN.dataName oN.dataName
          (((g.in_edges iN.nid).map (fun e => g.memlet_path e.eid)).flatten))).filter
        (fun e => e.src != iN.nid && e.dst != iN.nid)) =
        ((g.edges.filter (fun e => e.dst != iN.nid)).filter
          (fun e => e.src != iN.nid)).map
          (renOn iN.dataName oN.dataName
            (((g.in_edges iN.nid).map (fun e => g.memlet_path e.eid)).flatten)) := by
      rw [filter_srcdst_map _ (renOn_src iN.dataName oN.dataName _)
        (renOn_dst iN.dataName oN.dataName _) (fun s d => s != iN.nid && d != iN.nid)]
      congr 1
      rw [List.filter_filter, List.filter_filter]
      refine List.filter_congr ?_
      intro e he
      by_cases h2 : e.dst = iN.nid
      · simp [h2]
      · have hni : e.eid ∉ (g.in_edges iN.nid).map Edge.eid :=
          fun hm => h2 ((heiddst e he).mp hm)
        simp [h2, hni]
    have hB : (((g.in_edges iN.nid).map (fun e =>
        { renOn iN.dataName oN.dataName
            (((g.in_edges iN.nid).map (fun e2 => g.memlet_path e2.eid)).flatten) e with
          dst := oN.nid })).filter (fun e => e.src != iN.nid && e.dst != iN.nid)) =
        (g.in_edges iN.nid).map (fun e =>
          { renOn iN.dataName oN.dataName
              (((g.in_edges iN.nid).map (fun e2 => g.memlet_path e2.eid)).flatten) e with
            dst := oN.nid }) := by
      rw [List.filter_eq_self]
      intro a ha
      obtain ⟨e, he, rfl⟩ := List.mem_map.mp ha
      have hsrc : ({ renOn iN.dataName oN.dataName
          (((g.in_edges iN.nid).map (fun e2 => g.memlet_path e2.eid)).flatten) e with
          dst := oN.nid } : Edge).src = e.src :=
        renOn_src iN.dataName oN.dataName _ e
      simp only [Graph.in_edges] at he
      have he2 : e ∈ g.edges := (List.mem_filter.mp he).1
      have hed : (e.dst == iN.nid) = true := (List.mem_filter.mp he).2
      have hsrcne : e.src ≠ iN.nid := hnl e he2 (by simpa using hed)
      rw [Bool.and_eq_true]
      constructor
      · rw [hsrc]
        simpa using hsrcne
      · simpa using Ne.symm hio
    rw [hA, hB]
    rfl
  · -- the memlet-path oracle is untouched
    show ((List.foldl (fwdStep iN.dataName oN.dataName oN.nid) g
        (g.in_edges iN.nid)).removeNode iN.nid).memlet_path = g.memlet_path
    exact foldl_graph_proj Graph.memlet_path
      (fwdStep iN.dataName oN.dataName oN.nid) (fun _ _ => rfl) (g.in_edges iN.nid) g
  · -- the memlet-tree oracle is untouched
    show ((List.foldl (fwdStep iN.dataName oN.dataName oN.nid) g
        (g.in_edges iN.nid)).removeNode iN.nid).memlet_tree = g.memlet_tree
    exact foldl_graph_proj Graph.memlet_tree
      (fwdStep iN.dataName oN.dataName oN.nid) (fun _ _ => rfl) (g.in_edges iN.nid) g

/-- C6 witness: the characterization at a concrete producer chain
`P → A → B` where the inbound edge's one-segment memlet path names the
eliminated container `A`. -/
theorem c6_apply_forward_exact_witness :
    applyForwardG c6Graph ⟨1, .access "A"⟩ ⟨2, .access "B"⟩ =
      applyForwardSpecFn c6Graph ⟨1, .access "A"⟩ ⟨2, .access "B"⟩ :=
  c6_apply_forward_exact c6Graph ⟨1, .access "A"⟩ ⟨2, .access "B"⟩
    (by decide) (by decide) (by decide)

end DaceModel
